import Mathlib

/-!
Verification development for the `pii_redactor` PDF PII redaction tool.

The Python sources (`pii_detector.py`, `redactor.py`, `evaluate_metrics.py`)
are shallowly embedded below: pure helpers become Lean functions on
`String`/`List Char`, the effectful redaction driver becomes a function that
returns an explicit outcome record, and the external LLM call is passed in as
an `Except` value (error = the call raised).  Floating point metric values are
modelled as exact rationals.  Python semantics (`str.strip`, `str.split`,
`str.lower`, substring `in`, `re` matching) are modelled for ASCII text.
-/

namespace PiiRedaction

/-! ## Python string primitives -/

/-- ASCII lower-casing of one character, as Python `str.lower` acts on ASCII. -/
def lowerChar (c : Char) : Char :=
  if 'A' ≤ c ∧ c ≤ 'Z' then Char.ofNat (c.toNat + 32) else c

/-- Python whitespace (`str.strip` / `str.split` default separators). -/
def isPyWs (c : Char) : Bool :=
  c = ' ' || c = '\t' || c = '\n' || c = '\r' || c = '\x0b' || c = '\x0c'

/-- List-level model of Python `str.strip()`. -/
def stripL (l : List Char) : List Char :=
  ((l.dropWhile isPyWs).reverse.dropWhile isPyWs).reverse

/-- Python `s.strip()`. -/
def pyStrip (s : String) : String := ⟨stripL s.toList⟩

/-- Python `s.lower()` (ASCII model). -/
def pyLower (s : String) : String := ⟨s.toList.map lowerChar⟩

/-- Helper for Python `str.split()`: `cur` is the reversed current token. -/
def splitWsAux : List Char → List Char → List String
  | [], cur => if cur.isEmpty then [] else [⟨cur.reverse⟩]
  | c :: cs, cur =>
    if isPyWs c then (if cur.isEmpty then [] else [⟨cur.reverse⟩]) ++ splitWsAux cs []
    else splitWsAux cs (c :: cur)

/-- List-level model of Python `str.split()` with no argument: split on runs of
whitespace, discarding empty fragments. -/
def splitWsL (l : List Char) : List String := splitWsAux l []

/-- Python `s.split()`. -/
def pySplit (s : String) : List String := splitWsL s.toList

/-- List-level model of Python `s.split(sep)` for a one-character separator:
empty fragments are kept. -/
def splitOnCharL (sep : Char) : List Char → List (List Char)
  | [] => [[]]
  | c :: cs =>
    if c = sep then [] :: splitOnCharL sep cs
    else
      match splitOnCharL sep cs with
      | [] => [[c]]
      | p :: ps => (c :: p) :: ps

/-- Python `sep in s` for a single character. -/
def containsChar (s : String) (c : Char) : Bool := s.toList.contains c

/-- Python `s.replace(old, "")` for a one-character `old`. -/
def removeChar (s : String) (old : Char) : String :=
  ⟨s.toList.filter (fun c => c ≠ old)⟩

/-- Python `s.replace(old, new)` for one-character `old` and `new`. -/
def replaceChar (s : String) (old new : Char) : String :=
  ⟨s.toList.map (fun c => if c = old then new else c)⟩

/-- Substring test on character lists: models Python `needle in hay`. -/
def infixOfL (needle : List Char) : List Char → Bool
  | [] => needle.isEmpty
  | c :: cs => needle.isPrefixOf (c :: cs) || infixOfL needle cs

/-- Python substring test `needle in hay` on raw text. -/
def strContains (hay needle : String) : Bool :=
  infixOfL needle.toList hay.toList

/-- Python `needle.lower() in hay.lower()` (case-insensitive substring). -/
def infixCI (needle hay : String) : Bool :=
  infixOfL (needle.toList.map lowerChar) (hay.toList.map lowerChar)

/-! ## Core data -/

/-- One detected PII entity: the Python dict `{"type": ..., "text": ...}`. -/
structure Entity where
  ty : String
  text : String
deriving DecidableEq, Repr

/-- A page rectangle (`fitz.Rect`); PDF float coordinates are modelled as
exact rationals.  `fitz.Rect` equality is coordinatewise equality. -/
structure Rect where
  x0 : ℚ
  y0 : ℚ
  x1 : ℚ
  y1 : ℚ
deriving DecidableEq, Repr

/-! ## Order-preserving deduplication (redactor.py lines 124-130) -/

/-- The duplicate-removal loop at the end of `find_pii_matches_on_page`:
`for match in matches: if match not in unique_matches: unique_matches.append(match)`. -/
def dedupFirstSeen {α : Type} [DecidableEq α] (l : List α) : List α :=
  l.foldl (fun acc m => if m ∈ acc then acc else acc ++ [m]) []

theorem dedupFirstSeen_aux_nodup {α : Type} [DecidableEq α] :
    ∀ (l acc : List α), acc.Nodup →
      (l.foldl (fun acc m => if m ∈ acc then acc else acc ++ [m]) acc).Nodup := by
  intro l
  induction l with
  | nil => intro acc h; simpa using h
  | cons m t ih =>
    intro acc h
    by_cases hm : m ∈ acc
    · simpa [hm] using ih acc h
    · have : (acc ++ [m]).Nodup := by
        simp [List.nodup_append, h, hm]
      simpa [hm] using ih (acc ++ [m]) this

theorem dedupFirstSeen_aux_mem {α : Type} [DecidableEq α] :
    ∀ (l acc : List α) (x : α),
      (x ∈ l.foldl (fun acc m => if m ∈ acc then acc else acc ++ [m]) acc ↔
        x ∈ acc ∨ x ∈ l) := by
  intro l
  induction l with
  | nil => intro acc x; simp
  | cons m t ih =>
    intro acc x
    by_cases hm : m ∈ acc
    · simp only [List.foldl_cons, if_pos hm, ih acc x, List.mem_cons]
      constructor
      · rintro (h | h)
        · exact Or.inl h
        · exact Or.inr (Or.inr h)
      · rintro (h | h | h)
        · exact Or.inl h
        · exact Or.inl (h ▸ hm)
        · exact Or.inr h
    · simp only [List.foldl_cons, if_neg hm, ih (acc ++ [m]) x, List.mem_append,
        List.mem_singleton, List.mem_cons]
      tauto

theorem dedupFirstSeen_aux_sublist {α : Type} [DecidableEq α] :
    ∀ (l acc : List α), ∃ s : List α,
      l.foldl (fun acc m => if m ∈ acc then acc else acc ++ [m]) acc = acc ++ s ∧
        s.Sublist l := by
  intro l
  induction l with
  | nil => intro acc; exact ⟨[], by simp⟩
  | cons m t ih =>
    intro acc
    by_cases hm : m ∈ acc
    · obtain ⟨s, hs, hsub⟩ := ih acc
      exact ⟨s, by simpa [hm] using hs, hsub.cons m⟩
    · obtain ⟨s, hs, hsub⟩ := ih (acc ++ [m])
      refine ⟨m :: s, ?_, hsub.cons₂ m⟩
      simpa [hm, List.append_assoc] using hs

/-! ## Credit card validation (pii_detector.py lines 113-133) -/

/-- Numeric value of an ASCII digit character (`int(digit)`). -/
def digitVal (c : Char) : Nat := c.toNat - 48

/-- Body of the Luhn loop: `n *= 2; if n > 9: n -= 9` for odd positions from
the right. -/
def luhnAdjust (i : Nat) (n : Nat) : Nat :=
  if i % 2 = 1 then (if n * 2 > 9 then n * 2 - 9 else n * 2) else n

/-- Embedding of `PIIDetector.validate_credit_card`: strip non-digits, check
length 13..19, Luhn checksum over the reversed digit string. -/
def validate_credit_card (card_number : String) : Bool :=
  let ds := card_number.toList.filter Char.isDigit
  if 13 ≤ ds.length ∧ ds.length ≤ 19 then
    decide
      ((ds.reverse.enum.foldl (fun total p => total + luhnAdjust p.1 (digitVal p.2)) 0) % 10 = 0)
  else false

/-- The claim's description of the Luhn checksum, stated independently of the
code: walk the digits from the rightmost, double every second one, subtract 9
when the doubled value exceeds 9, and sum. -/
def luhnSpecSum : Bool → List Nat → Nat
  | _, [] => 0
  | false, d :: r => d + luhnSpecSum true r
  | true, d :: r => (if 2 * d > 9 then 2 * d - 9 else 2 * d) + luhnSpecSum false r

theorem luhn_fold_eq_spec (l : List Char) :
    ∀ (k t : Nat),
      (l.enumFrom k).foldl (fun total p => total + luhnAdjust p.1 (digitVal p.2)) t =
        t + luhnSpecSum (decide (k % 2 = 1)) (l.map digitVal) := by
  induction l with
  | nil => intro k t; simp [luhnSpecSum]
  | cons c cs ih =>
    intro k t
    rcases Nat.mod_two_eq_zero_or_one k with hk | hk
    · have hk1 : ¬ (k % 2 = 1) := by omega
      have hk2 : (k + 1) % 2 = 1 := by omega
      simp only [List.enumFrom_cons, List.foldl_cons, ih (k + 1), List.map_cons]
      simp [luhnAdjust, luhnSpecSum, hk1, hk2, Nat.add_assoc]
    · have hk2 : ¬ ((k + 1) % 2 = 1) := by omega
      simp only [List.enumFrom_cons, List.foldl_cons, ih (k + 1), List.map_cons]
      simp [luhnAdjust, luhnSpecSum, hk, hk2, Nat.add_assoc, Nat.mul_comm]

/-- Claim C3: `validate_credit_card` accepts a string iff, after stripping all
non-digit characters, the digit count is between 13 and 19 inclusive and the
Luhn checksum (double every second digit from the rightmost, subtract 9 when
the doubled value exceeds 9, sum all digits) is divisible by 10. -/
theorem validate_credit_card_iff_luhn (s : String) :
    validate_credit_card s = true ↔
      (13 ≤ (s.toList.filter Char.isDigit).length ∧
        (s.toList.filter Char.isDigit).length ≤ 19 ∧
        luhnSpecSum false ((s.toList.filter Char.isDigit).reverse.map digitVal) % 10 = 0) := by
  unfold validate_credit_card
  by_cases h : 13 ≤ (s.toList.filter Char.isDigit).length ∧
      (s.toList.filter Char.isDigit).length ≤ 19
  · have hfold := luhn_fold_eq_spec (s.toList.filter Char.isDigit).reverse 0 0
    simp only [List.enum, if_pos h, decide_eq_true_eq]
    rw [hfold]
    simp only [Nat.zero_add, decide_eq_true_eq, List.map_reverse]
    exact ⟨fun hl => ⟨h.1, h.2, by simpa using hl⟩, fun hr => by simpa using hr.2.2⟩
  · simp only [if_neg h]
    constructor
    · intro hfalse; cases hfalse
    · rintro ⟨h1, h2, _⟩; exact absurd ⟨h1, h2⟩ h

/-! ## Page model and the Region Locator (redactor.py lines 20-130)

A `fitz.Page` is modelled by the capabilities the locator uses: `search_for`
(a pure function from query string to hit rectangles), the structured layout
`get_text("dict")["blocks"]` and the plain text extractions.  The optional
dict keys tested by the code (`"lines" in block`, `"spans" in line`,
`"text" in span`) are modelled as `Option` fields. -/

/-- One span of `page.get_text("dict")`: optional `"text"` plus `"bbox"`. -/
structure Span where
  txt : Option String
  bbox : Rect
deriving DecidableEq, Repr

/-- One layout line: optional `"spans"` list. -/
structure Line where
  spans : Option (List Span)
deriving DecidableEq, Repr

/-- One layout block: optional `"lines"` list. -/
structure Block where
  lines : Option (List Line)
deriving DecidableEq, Repr

/-- The slice of a `fitz.Page` used by the redactor. -/
structure Page where
  searchFor : String → List Rect
  layoutBlocks : List Block
  blockTexts : List (Option String)
  rawText : String

/-- The five search variants tried by step 1 of `find_pii_matches_on_page`:
the text itself, spaces removed, whitespace normalized, hyphens removed,
hyphens replaced by spaces. -/
def searchVariants (t : String) : List String :=
  [t, removeChar t ' ', String.intercalate " " (pySplit t),
    removeChar t '-', replaceChar t '-' ' ']

/-- The per-line collection loop of step 2: build `line_text` by appending
each span text plus a space, and collect the spans that carry text. -/
def lineCollect (spans : List Span) : String × List Span :=
  spans.foldl
    (fun acc s =>
      match s.txt with
      | some t => (acc.1 ++ t ++ " ", acc.2 ++ [s])
      | none => acc)
    ("", [])

/-- The per-line word loop of step 2: count PII words (nonempty, length > 2)
occurring case-insensitively in the line text, and collect every span whose
text contains such a word (once per matching word, as the code does). -/
def wordScan (words : List String) (lineText : String) (spans : List Span) :
    Nat × List Span :=
  words.foldl
    (fun acc w =>
      if w ≠ "" ∧ w.length > 2 ∧ infixCI w lineText then
        (acc.1 + 1, acc.2 ++ spans.filter (fun sp => infixCI w (sp.txt.getD "")))
      else acc)
    (0, [])

/-- `min`/`max` of the span bounding boxes: the rectangle
`(min x0, min y0, max x1, max y1)` over a nonempty span list (the code only
evaluates it under the guard `matching_spans ≠ []`; the `[]` case is junk). -/
def boundingRect : List Span → Rect
  | [] => ⟨0, 0, 0, 0⟩
  | s :: rest =>
    rest.foldl
      (fun r sp =>
        ⟨min r.x0 sp.bbox.x0, min r.y0 sp.bbox.y0, max r.x1 sp.bbox.x1, max r.y1 sp.bbox.y1⟩)
      ⟨s.bbox.x0, s.bbox.y0, s.bbox.x1, s.bbox.y1⟩

/-- Step 2 of `find_pii_matches_on_page`: word-proximity matching over the
page layout. -/
def proximityMatches (page : Page) (words : List String) : List Rect :=
  page.layoutBlocks.foldl
    (fun acc block =>
      match block.lines with
      | none => acc
      | some lines =>
        lines.foldl
          (fun acc2 line =>
            match line.spans with
            | none => acc2
            | some lspans =>
              let col := lineCollect lspans
              let ws := wordScan words col.1 col.2
              if ws.1 ≥ 2 ∧ ws.2 ≠ [] then acc2 ++ [boundingRect ws.2] else acc2)
          acc)
    []

/-- The fixed separator list of step 3. -/
def separatorChars : List Char := [',', '\n', ';', '.', '-', ':', '/']

/-- Fragments of step 3 for one separator: split, strip, keep nonempty
fragments longer than 3 characters. -/
def separatorParts (t : String) (sep : Char) : List String :=
  ((splitOnCharL sep t.toList).map (fun p => pyStrip ⟨p⟩)).filter
    (fun p => p ≠ "" ∧ p.length > 3)

/-- Step 3 of `find_pii_matches_on_page`: separator splitting. -/
def separatorMatches (page : Page) (t : String) : List Rect :=
  separatorChars.foldl
    (fun acc sep =>
      if containsChar t sep then
        (separatorParts t sep).foldl (fun a part => a ++ page.searchFor part) acc
      else acc)
    []

/-- The digit-group scan of step 4: maximal runs of consecutive digits, kept
when at least 3 long. -/
def digitGroupsAux : List Char → List Char → List (List Char)
  | [], cur => if cur.length ≥ 3 then [cur] else []
  | c :: cs, cur =>
    if c.isDigit then digitGroupsAux cs (cur ++ [c])
    else (if cur.length ≥ 3 then [cur] else []) ++ digitGroupsAux cs []

/-- Digit groups of a string (step 4). -/
def digitGroups (t : String) : List String :=
  (digitGroupsAux t.toList []).map (fun l => ⟨l⟩)

/-- Step 4 of `find_pii_matches_on_page`: search for each digit group. -/
def digitGroupMatches (page : Page) (t : String) : List Rect :=
  (digitGroups t).foldl (fun acc g => acc ++ page.searchFor g) []

/-- The accumulated match list of `find_pii_matches_on_page` before the final
duplicate-removal loop (redactor.py lines 32-122). -/
def rawMatches (page : Page) (pii_text0 : String) : List Rect :=
  let t := pyStrip pii_text0
  if t = "" then []
  else
    let m1 := (searchVariants t).foldl
      (fun acc v => if v ≠ "" then acc ++ page.searchFor v else acc) []
    let words := pySplit t
    let m2 := if words.length > 1 ∧ m1 = [] then m1 ++ proximityMatches page words else m1
    let m3 := if m2 = [] then m2 ++ separatorMatches page t else m2
    if m3 = [] ∧ t.length ≤ 16 ∧ t.toList.any Char.isDigit then
      m3 ++ digitGroupMatches page t
    else m3

/-- Embedding of `PIIRedactor.find_pii_matches_on_page`: the layered search
followed by order-preserving duplicate removal. -/
def find_pii_matches_on_page (page : Page) (pii_text : String) : List Rect :=
  dedupFirstSeen (rawMatches page pii_text)

/-- Claim C5: the region list returned by the locator contains no two
geometrically identical rectangles, and the surviving rectangles appear in
first-seen order: the result is a sublist of the raw strategy output (hence
preserves its order) containing exactly the rectangles that occur in it. -/
theorem find_pii_matches_nodup_firstSeen (page : Page) (t : String) :
    (find_pii_matches_on_page page t).Nodup ∧
      (find_pii_matches_on_page page t).Sublist (rawMatches page t) ∧
      (∀ r : Rect, r ∈ find_pii_matches_on_page page t ↔ r ∈ rawMatches page t) := by
  unfold find_pii_matches_on_page dedupFirstSeen
  refine ⟨dedupFirstSeen_aux_nodup _ [] (by simp), ?_, ?_⟩
  · obtain ⟨s, hs, hsub⟩ := dedupFirstSeen_aux_sublist (rawMatches page t) []
    simpa [hs] using hsub
  · intro r
    simpa using dedupFirstSeen_aux_mem (rawMatches page t) [] r

/-! ## Word-proximity search, declarative characterization (claim C6) -/

theorem foldl_search_nil (page : Page) :
    ∀ (vs : List String) (acc : List Rect), (∀ v ∈ vs, page.searchFor v = []) →
      vs.foldl (fun acc v => if v ≠ "" then acc ++ page.searchFor v else acc) acc = acc := by
  intro vs
  induction vs with
  | nil => intro acc _; rfl
  | cons v t ih =>
    intro acc h
    by_cases hv : v = ""
    · simp only [List.foldl_cons, hv]
      exact ih acc (fun x hx => h x (List.mem_cons_of_mem _ hx))
    · simp only [List.foldl_cons, if_pos hv, h v (List.mem_cons_self _ _), List.append_nil]
      exact ih acc (fun x hx => h x (List.mem_cons_of_mem _ hx))

theorem foldl_eq_append_flatMap {α β : Type} (step : List β → α → List β) (g : α → List β)
    (hstep : ∀ acc x, step acc x = acc ++ g x) :
    ∀ (l : List α) (init : List β), l.foldl step init = init ++ l.flatMap g := by
  intro l
  induction l with
  | nil => intro init; simp
  | cons x xs ih =>
    intro init
    simp [hstep, ih, List.append_assoc]

theorem flatMap_toList_eq_filterMap {α β : Type} (F : α → Option β) (l : List α) :
    l.flatMap (fun x => (F x).toList) = l.filterMap F := by
  induction l with
  | nil => simp
  | cons x xs ih => cases h : F x <;> simp [h, ih]

/-- Predicate of the word loop: the word is nonempty, longer than 2
characters, and occurs case-insensitively in the line text. -/
def wordHits (lineText w : String) : Prop :=
  w ≠ "" ∧ w.length > 2 ∧ infixCI w lineText

instance (lineText w : String) : Decidable (wordHits lineText w) := by
  unfold wordHits; infer_instance

theorem wordScan_fold (lt : String) (spans : List Span) :
    ∀ (words : List String) (c : Nat) (ms : List Span),
      words.foldl
        (fun acc w =>
          if w ≠ "" ∧ w.length > 2 ∧ infixCI w lt then
            (acc.1 + 1, acc.2 ++ spans.filter (fun sp => infixCI w (sp.txt.getD "")))
          else acc)
        (c, ms) =
      (c + (words.filter (fun w => decide (wordHits lt w))).length,
        ms ++ (words.filter (fun w => decide (wordHits lt w))).flatMap
          (fun w => spans.filter (fun sp => infixCI w (sp.txt.getD "")))) := by
  intro words
  induction words with
  | nil => intro c ms; simp
  | cons w ws ih =>
    intro c ms
    by_cases hw : wordHits lt w
    · have hcond : w ≠ "" ∧ w.length > 2 ∧ infixCI w lt := hw
      have hd : decide (wordHits lt w) = true := by simpa using hw
      rw [List.foldl_cons, if_pos hcond, ih]
      simp only [List.filter_cons, hd, if_true, List.flatMap_cons, List.length_cons,
        List.append_assoc, Prod.mk.injEq]
      exact ⟨by omega, trivial⟩
    · have hcond : ¬ (w ≠ "" ∧ w.length > 2 ∧ infixCI w lt) := hw
      have hd : decide (wordHits lt w) = false := by simpa using hw
      rw [List.foldl_cons, if_neg hcond, ih]
      simp [List.filter_cons, hd]

theorem wordScan_eq (words : List String) (lt : String) (spans : List Span) :
    wordScan words lt spans =
      ((words.filter (fun w => decide (wordHits lt w))).length,
        (words.filter (fun w => decide (wordHits lt w))).flatMap
          (fun w => spans.filter (fun sp => infixCI w (sp.txt.getD "")))) := by
  unfold wordScan
  rw [wordScan_fold]
  simp

theorem foldl_min_mem {α : Type} [LinearOrder α] :
    ∀ (xs : List α) (x : α), xs.foldl min x ∈ x :: xs := by
  intro xs
  induction xs with
  | nil => intro x; simp
  | cons y ys ih =>
    intro x
    have h := ih (min x y)
    rcases min_choice x y with hc | hc <;>
      · rw [List.foldl_cons]
        rcases List.mem_cons.mp h with h1 | h1 <;> simp [hc] at h1 ⊢ <;> simp [h1]

theorem foldl_min_le {α : Type} [LinearOrder α] :
    ∀ (xs : List α) (x y : α), y ∈ x :: xs → xs.foldl min x ≤ y := by
  intro xs
  induction xs with
  | nil => intro x y hy; simp at hy; simp [hy]
  | cons z zs ih =>
    intro x y hy
    rw [List.foldl_cons]
    rcases List.mem_cons.mp hy with h1 | h1
    · subst h1
      exact le_trans (ih (min y z) (min y z) (List.mem_cons_self _ _)) (min_le_left _ _)
    · rcases List.mem_cons.mp h1 with h2 | h2
      · subst h2
        exact le_trans (ih (min x y) (min x y) (List.mem_cons_self _ _)) (min_le_right _ _)
      · exact ih (min x z) y (List.mem_cons_of_mem _ h2)

theorem foldl_max_mem {α : Type} [LinearOrder α] :
    ∀ (xs : List α) (x : α), xs.foldl max x ∈ x :: xs := by
  intro xs
  induction xs with
  | nil => intro x; simp
  | cons y ys ih =>
    intro x
    have h := ih (max x y)
    rcases max_choice x y with hc | hc <;>
      · rw [List.foldl_cons]
        rcases List.mem_cons.mp h with h1 | h1 <;> simp [hc] at h1 ⊢ <;> simp [h1]

theorem foldl_max_ge {α : Type} [LinearOrder α] :
    ∀ (xs : List α) (x y : α), y ∈ x :: xs → y ≤ xs.foldl max x := by
  intro xs
  induction xs with
  | nil => intro x y hy; simp at hy; simp [hy]
  | cons z zs ih =>
    intro x y hy
    rw [List.foldl_cons]
    rcases List.mem_cons.mp hy with h1 | h1
    · subst h1
      exact le_trans (le_max_left y z) (ih (max y z) (max y z) (List.mem_cons_self _ _))
    · rcases List.mem_cons.mp h1 with h2 | h2
      · subst h2
        exact le_trans (le_max_right x y) (ih (max x y) (max x y) (List.mem_cons_self _ _))
      · exact ih (max x z) y (List.mem_cons_of_mem _ h2)

theorem foldl_min_congr {α : Type} [LinearOrder α] (x₁ x₂ : α) (xs₁ xs₂ : List α)
    (h : ∀ y, y ∈ x₁ :: xs₁ ↔ y ∈ x₂ :: xs₂) :
    xs₁.foldl min x₁ = xs₂.foldl min x₂ := by
  refine le_antisymm ?_ ?_
  · exact foldl_min_le xs₁ x₁ _ ((h _).mpr (foldl_min_mem xs₂ x₂))
  · exact foldl_min_le xs₂ x₂ _ ((h _).mp (foldl_min_mem xs₁ x₁))

theorem foldl_max_congr {α : Type} [LinearOrder α] (x₁ x₂ : α) (xs₁ xs₂ : List α)
    (h : ∀ y, y ∈ x₁ :: xs₁ ↔ y ∈ x₂ :: xs₂) :
    xs₁.foldl max x₁ = xs₂.foldl max x₂ := by
  refine le_antisymm ?_ ?_
  · exact foldl_max_ge xs₂ x₂ _ ((h _).mp (foldl_max_mem xs₁ x₁))
  · exact foldl_max_ge xs₁ x₁ _ ((h _).mpr (foldl_max_mem xs₂ x₂))

theorem rect_eq (a b : Rect) (h0 : a.x0 = b.x0) (h1 : a.y0 = b.y0) (h2 : a.x1 = b.x1)
    (h3 : a.y1 = b.y1) : a = b := by
  cases a; cases b; simp_all

theorem brFold_x0 :
    ∀ (l : List Span) (r : Rect),
      (l.foldl
          (fun r sp =>
            ⟨min r.x0 sp.bbox.x0, min r.y0 sp.bbox.y0, max r.x1 sp.bbox.x1,
              max r.y1 sp.bbox.y1⟩)
          r).x0 =
        (l.map (fun sp => sp.bbox.x0)).foldl min r.x0 := by
  intro l
  induction l with
  | nil => intro r; rfl
  | cons s t ih => intro r; simp [ih]

theorem brFold_y0 :
    ∀ (l : List Span) (r : Rect),
      (l.foldl
          (fun r sp =>
            ⟨min r.x0 sp.bbox.x0, min r.y0 sp.bbox.y0, max r.x1 sp.bbox.x1,
              max r.y1 sp.bbox.y1⟩)
          r).y0 =
        (l.map (fun sp => sp.bbox.y0)).foldl min r.y0 := by
  intro l
  induction l with
  | nil => intro r; rfl
  | cons s t ih => intro r; simp [ih]

theorem brFold_x1 :
    ∀ (l : List Span) (r : Rect),
      (l.foldl
          (fun r sp =>
            ⟨min r.x0 sp.bbox.x0, min r.y0 sp.bbox.y0, max r.x1 sp.bbox.x1,
              max r.y1 sp.bbox.y1⟩)
          r).x1 =
        (l.map (fun sp => sp.bbox.x1)).foldl max r.x1 := by
  intro l
  induction l with
  | nil => intro r; rfl
  | cons s t ih => intro r; simp [ih]

theorem brFold_y1 :
    ∀ (l : List Span) (r : Rect),
      (l.foldl
          (fun r sp =>
            ⟨min r.x0 sp.bbox.x0, min r.y0 sp.bbox.y0, max r.x1 sp.bbox.x1,
              max r.y1 sp.bbox.y1⟩)
          r).y1 =
        (l.map (fun sp => sp.bbox.y1)).foldl max r.y1 := by
  intro l
  induction l with
  | nil => intro r; rfl
  | cons s t ih => intro r; simp [ih]

theorem boundingRect_congr (l₁ l₂ : List Span) (h1 : l₁ ≠ []) (h2 : l₂ ≠ [])
    (h : ∀ sp, sp ∈ l₁ ↔ sp ∈ l₂) : boundingRect l₁ = boundingRect l₂ := by
  match l₁, l₂ with
  | [], _ => exact absurd rfl h1
  | _ :: _, [] => exact absurd rfl h2
  | s₁ :: t₁, s₂ :: t₂ =>
    have hmap : ∀ (f : Span → ℚ) (y : ℚ),
        (y ∈ f s₁ :: t₁.map f ↔ y ∈ f s₂ :: t₂.map f) := by
      intro f y
      have e1 : f s₁ :: t₁.map f = (s₁ :: t₁).map f := rfl
      have e2 : f s₂ :: t₂.map f = (s₂ :: t₂).map f := rfl
      rw [e1, e2]
      simp only [List.mem_map]
      constructor
      · rintro ⟨sp, hsp, rfl⟩; exact ⟨sp, (h sp).mp hsp, rfl⟩
      · rintro ⟨sp, hsp, rfl⟩; exact ⟨sp, (h sp).mpr hsp, rfl⟩
    have e₁ : boundingRect (s₁ :: t₁) =
        t₁.foldl
          (fun r sp =>
            ⟨min r.x0 sp.bbox.x0, min r.y0 sp.bbox.y0, max r.x1 sp.bbox.x1,
              max r.y1 sp.bbox.y1⟩)
          ⟨s₁.bbox.x0, s₁.bbox.y0, s₁.bbox.x1, s₁.bbox.y1⟩ := rfl
    have e₂ : boundingRect (s₂ :: t₂) =
        t₂.foldl
          (fun r sp =>
            ⟨min r.x0 sp.bbox.x0, min r.y0 sp.bbox.y0, max r.x1 sp.bbox.x1,
              max r.y1 sp.bbox.y1⟩)
          ⟨s₂.bbox.x0, s₂.bbox.y0, s₂.bbox.x1, s₂.bbox.y1⟩ := rfl
    refine rect_eq _ _ ?_ ?_ ?_ ?_
    · rw [e₁, e₂, brFold_x0, brFold_x0]
      exact foldl_min_congr _ _ _ _ (hmap (fun sp => sp.bbox.x0))
    · rw [e₁, e₂, brFold_y0, brFold_y0]
      exact foldl_min_congr _ _ _ _ (hmap (fun sp => sp.bbox.y0))
    · rw [e₁, e₂, brFold_x1, brFold_x1]
      exact foldl_max_congr _ _ _ _ (hmap (fun sp => sp.bbox.x1))
    · rw [e₁, e₂, brFold_y1, brFold_y1]
      exact foldl_max_congr _ _ _ _ (hmap (fun sp => sp.bbox.y1))

/-- Declarative description of what one layout line contributes to the
word-proximity strategy: a region iff at least two word occurrences from the
split PII word list (counted with multiplicity, each nonempty and longer than
2 characters) occur case-insensitively in the line text; the region is the
minimal bounding rectangle of the text-carrying spans containing at least one
matching word. -/
def lineRegion (words : List String) (lineText : String) (spans : List Span) : Option Rect :=
  let mw := words.filter (fun w => decide (wordHits lineText w))
  let ms := spans.filter (fun sp => mw.any (fun w => infixCI w (sp.txt.getD "")))
  if 2 ≤ mw.length ∧ ms ≠ [] then some (boundingRect ms) else none

/-- All `(lineText, spans)` pairs of a page's layout, in document order,
skipping blocks without `"lines"` and lines without `"spans"`. -/
def lineData (page : Page) : List (String × List Span) :=
  page.layoutBlocks.flatMap (fun b =>
    (b.lines.getD []).filterMap (fun line => line.spans.map lineCollect))

theorem perLine_eq (words : List String) (lt : String) (spans : List Span) :
    (if (wordScan words lt spans).1 ≥ 2 ∧ (wordScan words lt spans).2 ≠ [] then
        [boundingRect (wordScan words lt spans).2]
      else []) =
      (lineRegion words lt spans).toList := by
  rw [wordScan_eq]
  set mw := words.filter (fun w => decide (wordHits lt w)) with hmw
  set msFlat := mw.flatMap (fun w => spans.filter (fun sp => infixCI w (sp.txt.getD ""))) with hflat
  set msFilt := spans.filter (fun sp => mw.any (fun w => infixCI w (sp.txt.getD ""))) with hfilt
  have hmem : ∀ sp, sp ∈ msFlat ↔ sp ∈ msFilt := by
    intro sp
    rw [hflat, hfilt]
    simp only [List.mem_flatMap, List.mem_filter, List.any_eq_true]
    constructor
    · rintro ⟨w, hw, hsp, hci⟩; exact ⟨hsp, w, hw, hci⟩
    · rintro ⟨hsp, w, hw, hci⟩; exact ⟨w, hw, hsp, hci⟩
  have hne : msFlat ≠ [] ↔ msFilt ≠ [] := by
    rw [Ne, Ne, List.eq_nil_iff_forall_not_mem, List.eq_nil_iff_forall_not_mem]
    constructor
    · intro hcon hall
      exact hcon (fun x hx => hall x ((hmem x).mp hx))
    · intro hcon hall
      exact hcon (fun x hx => hall x ((hmem x).mpr hx))
  unfold lineRegion
  by_cases hc : 2 ≤ mw.length ∧ msFilt ≠ []
  · have hc' : mw.length ≥ 2 ∧ msFlat ≠ [] := ⟨hc.1, hne.mpr hc.2⟩
    rw [if_pos hc', if_pos hc]
    simp only [Option.toList_some]
    congr 1
    exact boundingRect_congr _ _ hc'.2 hc.2 hmem
  · have hc' : ¬ (mw.length ≥ 2 ∧ msFlat ≠ []) := by
      intro hcon
      exact hc ⟨hcon.1, hne.mp hcon.2⟩
    rw [if_neg hc', if_neg hc]
    rfl

/-- Equivalence of the imperative word-proximity pass with its declarative
per-line description. -/
theorem proximityMatches_eq_lineRegions (page : Page) (words : List String) :
    proximityMatches page words =
      (lineData page).filterMap (fun pr => lineRegion words pr.1 pr.2) := by
  unfold proximityMatches lineData
  have hline : ∀ (acc2 : List Rect) (line : Line),
      (match line.spans with
        | none => acc2
        | some lspans =>
          let col := lineCollect lspans
          let ws := wordScan words col.1 col.2
          if ws.1 ≥ 2 ∧ ws.2 ≠ [] then acc2 ++ [boundingRect ws.2] else acc2) =
        acc2 ++ ((line.spans.map lineCollect).map
          (fun pr => lineRegion words pr.1 pr.2)).toList.flatMap Option.toList := by
    intro acc2 line
    cases hs : line.spans with
    | none => simp
    | some lspans =>
      simp only [Option.map_some, Option.toList_some]
      have := perLine_eq words (lineCollect lspans).1 (lineCollect lspans).2
      by_cases hc : (wordScan words (lineCollect lspans).1 (lineCollect lspans).2).1 ≥ 2 ∧
          (wordScan words (lineCollect lspans).1 (lineCollect lspans).2).2 ≠ []
      · rw [if_pos hc] at this ⊢
        simp [← this]
      · rw [if_neg hc] at this ⊢
        simp [← this]
  have hblock : ∀ (acc : List Rect) (block : Block),
      (match block.lines with
        | none => acc
        | some lines =>
          lines.foldl
            (fun acc2 line =>
              match line.spans with
              | none => acc2
              | some lspans =>
                let col := lineCollect lspans
                let ws := wordScan words col.1 col.2
                if ws.1 ≥ 2 ∧ ws.2 ≠ [] then acc2 ++ [boundingRect ws.2] else acc2)
            acc) =
        acc ++ ((block.lines.getD []).filterMap (fun line => line.spans.map lineCollect)).filterMap
          (fun pr => lineRegion words pr.1 pr.2) := by
    intro acc block
    cases hb : block.lines with
    | none => simp
    | some lines =>
      simp only [Option.getD_some]
      rw [foldl_eq_append_flatMap _
        (fun line => ((line.spans.map lineCollect).map
          (fun pr => lineRegion words pr.1 pr.2)).toList.flatMap Option.toList) hline]
      congr 1
      rw [List.filterMap_filterMap]
      rw [← flatMap_toList_eq_filterMap]
      congr 1
      funext line
      cases line.spans <;> simp
  rw [foldl_eq_append_flatMap _
    (fun block => ((block.lines.getD []).filterMap (fun line => line.spans.map lineCollect)).filterMap
      (fun pr => lineRegion words pr.1 pr.2)) hblock]
  rw [List.filterMap_flatMap]
  simp

/-- Claim C6 (amended): the word-proximity strategy runs only when the
exact/normalized variant searches found nothing and the stripped PII string
has more than one word; then each layout line contributes exactly one region
iff at least 2 word occurrences from the split PII word list — counted with
multiplicity, each nonempty and of length > 2 — appear as case-insensitive
substrings of the line text, and that region is the minimal bounding
rectangle enclosing every text-carrying span containing a matching word. -/
theorem word_proximity_line_characterization (page : Page) (t : String)
    (h0 : pyStrip t ≠ "")
    (h1 : ∀ v ∈ searchVariants (pyStrip t), page.searchFor v = [])
    (h2 : (pySplit (pyStrip t)).length > 1)
    (h3 : proximityMatches page (pySplit (pyStrip t)) ≠ []) :
    find_pii_matches_on_page page t =
      dedupFirstSeen ((lineData page).filterMap
        (fun pr => lineRegion (pySplit (pyStrip t)) pr.1 pr.2)) := by
  have hm1 : (searchVariants (pyStrip t)).foldl
      (fun acc v => if v ≠ "" then acc ++ page.searchFor v else acc) [] = [] :=
    foldl_search_nil page _ [] h1
  unfold find_pii_matches_on_page
  rw [← proximityMatches_eq_lineRegions]
  congr 1
  unfold rawMatches
  simp only [if_neg h0, hm1, and_true, List.nil_append]
  simp only [if_pos h2, if_neg h3]
  rw [if_neg]
  intro hcon
  exact h3 hcon.1

/-- One text span used by the claim C6 page fixtures. -/
def spanC6 : Span := ⟨some "Bob Lee phone", ⟨1, 2, 3, 4⟩⟩

/-- A page whose exact search finds nothing and whose layout holds one line
with the single span `spanC6`. -/
def pageC6 : Page := ⟨fun _ => [], [⟨some [⟨some [spanC6]⟩]⟩], [], ""⟩

/-- Claim C6 counterexample: for the PII string "Bob Bob" — a single distinct
word, and no word of length > 3 — the claim predicts that no line emits a
region, but the locator (exact search finding nothing) emits one region from
the word-proximity strategy: the code requires only 2 word occurrences
(duplicates included) of length > 2. -/
theorem word_proximity_counterexample :
    find_pii_matches_on_page pageC6 "Bob Bob" = [⟨1, 2, 3, 4⟩] ∧
      (pySplit "Bob Bob").dedup = ["Bob"] ∧
      ∀ w ∈ pySplit "Bob Bob", ¬ (w.length > 3) := by
  refine ⟨by decide, by decide, by decide⟩

/-- Witness for the amended claim C6 at a concrete page and PII string. -/
theorem word_proximity_line_characterization_witness :
    find_pii_matches_on_page pageC6 "Bob Bob" =
      dedupFirstSeen ((lineData pageC6).filterMap
        (fun pr => lineRegion (pySplit (pyStrip "Bob Bob")) pr.1 pr.2)) :=
  word_proximity_line_characterization pageC6 "Bob Bob" (by decide)
    (fun _ _ => rfl) (by decide) (by decide)

/-! ## The redaction driver (redactor.py lines 132-212)

`redact_pdf` opens the document, concatenates the per-page block text, runs
detection, and either returns success immediately (no PII) or redacts every
page, strips metadata and saves.  The document is modelled as its page list;
opening and saving are modelled as succeeding, and the in-`try` body of
`detect_pii` (language detection, regex pass, LLM verification) is passed in
as an `Except`-valued function of the extracted text, `error` modelling a
raised exception. -/

/-- A document: the pages of the opened `fitz` document. -/
structure Doc where
  pages : List Page

/-- Per-page text of `page.get_text("blocks")`: join the string-typed
`block[4]` entries with newlines. -/
def pageBlockText (p : Page) : String :=
  String.intercalate "\n" (p.blockTexts.filterMap id)

/-- The concatenated whole-document text built by `redact_pdf`. -/
def fullDocumentText (doc : Doc) : String :=
  doc.pages.foldl (fun acc p => acc ++ pageBlockText p ++ "\n") ""

/-- Embedding of `PIIDetector.detect_pii`: the entire body runs inside
`try ... except Exception: return []`, so a raised error is swallowed and an
empty entity list returned. -/
def detect_pii (run : Except Unit (List Entity)) : List Entity :=
  match run with
  | .ok es => es
  | .error _ => []

/-- Observable outcome of one `redact_pdf` run: the reported boolean, the
redaction rectangles annotated and applied per page, and whether the
metadata-stripping and save steps executed. -/
structure RedactOutcome where
  success : Bool
  pageRedactions : List (List Rect)
  metadataCleared : Bool
  saved : Bool
deriving DecidableEq, Repr

/-- The redaction rectangles accumulated for one page: for each entity with a
nonempty text, every region the locator returns. -/
def pageAnnotations (pii : List Entity) (p : Page) : List Rect :=
  pii.foldl
    (fun acc e => if e.text = "" then acc else acc ++ find_pii_matches_on_page p e.text) []

/-- Embedding of `PIIRedactor.redact_pdf`.  When detection yields no
entities the function returns success before touching any page, the
metadata, or the output file; otherwise it redacts every page, clears the
metadata and saves. -/
def redact_pdf (run : String → Except Unit (List Entity)) (doc : Doc) : RedactOutcome :=
  let fullText := fullDocumentText doc
  let pii := detect_pii (run fullText)
  if pii.isEmpty then ⟨true, [], false, false⟩
  else ⟨true, doc.pages.map (fun p => pageAnnotations pii p), true, true⟩

/-- Claim C8: a document for which detection yields an empty entity list is a
trivial success — `redact_pdf` reports success, mutates zero pages, performs
no metadata stripping, and saves no output artifact. -/
theorem no_pii_trivial_success (run : String → Except Unit (List Entity)) (doc : Doc)
    (h : detect_pii (run (fullDocumentText doc)) = []) :
    redact_pdf run doc = ⟨true, [], false, false⟩ := by
  unfold redact_pdf
  simp [h]

/-- Witness for claim C8 at a concrete detector and document. -/
theorem no_pii_trivial_success_witness :
    redact_pdf (fun _ => Except.ok []) (Doc.mk []) = ⟨true, [], false, false⟩ :=
  no_pii_trivial_success (fun _ => Except.ok []) (Doc.mk []) rfl

/-- Claim C2 counterexample: when step 1 (detection over the concatenated
document text) raises, `redact_pdf` still reports the run as a success —
`detect_pii` swallows the exception into an empty entity list, which is then
treated as the trivial no-PII success case. -/
theorem detection_error_reports_success :
    (redact_pdf (fun _ => Except.error ()) (Doc.mk [])).success = true := rfl

/-- Claim C2 (amended): an error raised during detection is not fatal: for
every document, `detect_pii` catches it and returns the empty entity list,
and `redact_pdf` reports the run as a trivial success with no page mutated,
no metadata stripped and no output saved. -/
theorem detection_error_swallowed (doc : Doc) :
    detect_pii (Except.error ()) = [] ∧
      redact_pdf (fun _ => Except.error ()) doc = ⟨true, [], false, false⟩ := by
  constructor
  · rfl
  · unfold redact_pdf
    simp [detect_pii]

/-! ## The evaluator (evaluate_metrics.py lines 37-125)

Python float arithmetic on the metric values is modelled with exact
rationals; the Python `set` of words is modelled as a first-occurrence
deduplicated list (the set's iteration order is unspecified in Python, the
false-positive count does not depend on it). -/

/-- The newline replacement inside `normalize`. -/
def replNl (c : Char) : Char := if c = '\n' then ' ' else c

/-- List-level `normalize`: `text.lower().strip().replace("\n", " ")`. -/
def normalizeL (l : List Char) : List Char := (stripL (l.map lowerChar)).map replNl

/-- Embedding of `evaluate_metrics.normalize`. -/
def normalize (s : String) : String := ⟨normalizeL s.toList⟩

/-- One ground-truth PII item (`{"text": ..., "page": ...}`, page optional). -/
structure GtPii where
  text : String
  page : Option Nat
deriving DecidableEq, Repr

/-- Python `\w` for ASCII: letters, digits, underscore. -/
def wordChar (c : Char) : Bool := c.isAlphanum || c = '_'

/-- Helper for `re.findall(r"\b\w+\b", s)`: maximal runs of word characters;
`cur` is the reversed current run. -/
def wordsOfAux : List Char → List Char → List String
  | [], cur => if cur.isEmpty then [] else [⟨cur.reverse⟩]
  | c :: cs, cur =>
    if wordChar c then wordsOfAux cs (c :: cur)
    else (if cur.isEmpty then [] else [⟨cur.reverse⟩]) ++ wordsOfAux cs []

/-- All `\b\w+\b` words of a string, in text order. -/
def wordsOf (s : String) : List String := wordsOfAux s.toList []

/-- Result record of `evaluate_redaction`. -/
structure EvalResult where
  tp : Nat
  fn : Nat
  fp : Nat
  precision : ℚ
  recl : ℚ
  f1 : ℚ
  missed : List (Option Nat × String)
  wrongly : List String
deriving DecidableEq, Repr

/-- The guarded ratio `a / (a + b)` of evaluate_metrics.py lines 112-113,
used for both precision (`b` = FP) and recall (`b` = FN): 0 when the
denominator is 0. -/
def ratioOf (a b : Nat) : ℚ :=
  if a + b > 0 then (a : ℚ) / ((a : ℚ) + (b : ℚ)) else 0

/-- The guarded F1 formula of evaluate_metrics.py line 114: `2PR/(P+R)`,
0 when the denominator is 0. -/
def f1Of (p r : ℚ) : ℚ :=
  if p + r > 0 then 2 * p * r / (p + r) else 0

/-- Embedding of `evaluate_redaction`. -/
def evaluate_redaction (original_text : String) (ground_truth : List GtPii)
    (redacted_text : String) : EvalResult :=
  let normRed := normalize redacted_text
  let normOrig := normalize original_text
  let tfm := ground_truth.foldl
    (fun st pii =>
      let ptext := normalize pii.text
      if ¬ strContains normOrig ptext then st
      else if strContains normRed ptext then (st.1, st.2.1 + 1, st.2.2 ++ [(pii.page, pii.text)])
      else (st.1 + 1, st.2.1, st.2.2))
    ((0, 0, []) : Nat × Nat × List (Option Nat × String))
  let tp := tfm.1
  let fn := tfm.2.1
  let piiTerms := ground_truth.flatMap (fun pii =>
    normalize pii.text ::
      (pySplit (normalize pii.text)).filter (fun w => decide (w.length > 3)))
  let origWords := dedupFirstSeen (wordsOf normOrig)
  let redWords := wordsOf normRed
  let wrongly := (origWords.filter (fun w => !redWords.contains w)).filter
    (fun w => decide (w.length > 3) && !piiTerms.any (fun term => infixCI w term))
  let fp := wrongly.length
  ⟨tp, fn, fp, ratioOf tp fp, ratioOf tp fn, f1Of (ratioOf tp fp) (ratioOf tp fn),
    tfm.2.2, wrongly⟩

theorem ratio_bounds (a b : Nat) : 0 ≤ ratioOf a b ∧ ratioOf a b ≤ 1 := by
  unfold ratioOf
  by_cases h : a + b > 0
  · have hq : (0 : ℚ) < (a : ℚ) + (b : ℚ) := by
      have : ((a + b : Nat) : ℚ) > 0 := by exact_mod_cast h
      push_cast at this
      linarith
    rw [if_pos h]
    constructor
    · exact div_nonneg (by positivity) (le_of_lt hq)
    · rw [div_le_one hq]
      have : (0 : ℚ) ≤ (b : ℚ) := by positivity
      linarith
  · rw [if_neg h]
    norm_num

theorem f1_bounds (p r : ℚ) (hp0 : 0 ≤ p) (hp1 : p ≤ 1) (hr0 : 0 ≤ r) (hr1 : r ≤ 1) :
    0 ≤ f1Of p r ∧ f1Of p r ≤ 1 := by
  unfold f1Of
  by_cases h : p + r > 0
  · rw [if_pos h]
    constructor
    · exact div_nonneg (by positivity) (le_of_lt h)
    · rw [div_le_one h]
      nlinarith [mul_nonneg hp0 (sub_nonneg.mpr hr1), mul_nonneg hr0 (sub_nonneg.mpr hp1)]
  · rw [if_neg h]
    norm_num

/-- Claim C9: precision, recall (field `recl`) and f1 are always defined — computed by the
guarded formulas `TP/(TP+FP)`, `TP/(TP+FN)` and `2PR/(P+R)`, each 0 when its
denominator is 0 — and always lie in the interval [0, 1]. -/
theorem evaluate_redaction_metric_shape (o : String) (gt : List GtPii) (r : String) :
    ∃ (tp fn fp : Nat) (missed : List (Option Nat × String)) (wrongly : List String),
      evaluate_redaction o gt r =
        ⟨tp, fn, fp, ratioOf tp fp, ratioOf tp fn, f1Of (ratioOf tp fp) (ratioOf tp fn),
          missed, wrongly⟩ :=
  ⟨_, _, _, _, _, rfl⟩

theorem metrics_defined_and_bounded (o : String) (gt : List GtPii) (r : String) :
    (evaluate_redaction o gt r).precision =
        ratioOf (evaluate_redaction o gt r).tp (evaluate_redaction o gt r).fp ∧
      (evaluate_redaction o gt r).recl =
        ratioOf (evaluate_redaction o gt r).tp (evaluate_redaction o gt r).fn ∧
      (evaluate_redaction o gt r).f1 =
        f1Of (evaluate_redaction o gt r).precision (evaluate_redaction o gt r).recl ∧
      0 ≤ (evaluate_redaction o gt r).precision ∧ (evaluate_redaction o gt r).precision ≤ 1 ∧
      0 ≤ (evaluate_redaction o gt r).recl ∧ (evaluate_redaction o gt r).recl ≤ 1 ∧
      0 ≤ (evaluate_redaction o gt r).f1 ∧ (evaluate_redaction o gt r).f1 ≤ 1 := by
  obtain ⟨tp, fn, fp, missed, wrongly, hEq⟩ := evaluate_redaction_metric_shape o gt r
  rw [hEq]
  have hp := ratio_bounds tp fp
  have hr := ratio_bounds tp fn
  exact ⟨rfl, rfl, rfl, hp.1, hp.2, hr.1, hr.2,
    (f1_bounds _ _ hp.1 hp.2 hr.1 hr.2).1, (f1_bounds _ _ hp.1 hp.2 hr.1 hr.2).2⟩

/-! ## Case / line-break insensitivity of the evaluator (claim C10) -/

/-- Character relation after lower-casing: equal, or a newline/space swap. -/
def spChar (a b : Char) : Bool :=
  a = b || (a = '\n' && b = ' ') || (a = ' ' && b = '\n')

/-- Characters that differ only by ASCII case or by a newline/space swap. -/
def charEquiv (a b : Char) : Bool :=
  lowerChar a = lowerChar b || (a = '\n' && b = ' ') || (a = ' ' && b = '\n')

/-- Pointwise `spChar` on equal-length lists. -/
def spEquivL : List Char → List Char → Bool
  | [], [] => true
  | a :: as, b :: bs => spChar a b && spEquivL as bs
  | _, _ => false

/-- Pointwise `charEquiv` on equal-length lists. -/
def textEquivL : List Char → List Char → Bool
  | [], [] => true
  | a :: as, b :: bs => charEquiv a b && textEquivL as bs
  | _, _ => false

/-- Texts that differ only by letter case or by newline/space swaps. -/
def textEquiv (s t : String) : Bool := textEquivL s.toList t.toList

theorem spChar_lower (a b : Char) (h : charEquiv a b = true) :
    spChar (lowerChar a) (lowerChar b) = true := by
  unfold charEquiv at h
  simp only [Bool.or_eq_true, Bool.and_eq_true, decide_eq_true_eq] at h
  rcases h with (h | ⟨h1, h2⟩) | ⟨h1, h2⟩
  · unfold spChar
    simp [h]
  · subst h1; subst h2; decide
  · subst h1; subst h2; decide

theorem textEquivL_map_lower :
    ∀ l₁ l₂, textEquivL l₁ l₂ = true →
      spEquivL (l₁.map lowerChar) (l₂.map lowerChar) = true := by
  intro l₁
  induction l₁ with
  | nil => intro l₂ h; cases l₂ <;> simp_all [textEquivL, spEquivL]
  | cons a as ih =>
    intro l₂ h
    cases l₂ with
    | nil => simp [textEquivL] at h
    | cons b bs =>
      simp only [textEquivL, Bool.and_eq_true] at h
      simp only [List.map_cons, spEquivL, Bool.and_eq_true]
      exact ⟨spChar_lower a b h.1, ih bs h.2⟩

theorem spChar_ws (a b : Char) (h : spChar a b = true) : isPyWs a = isPyWs b := by
  unfold spChar at h
  simp only [Bool.or_eq_true, Bool.and_eq_true, decide_eq_true_eq] at h
  rcases h with (h | ⟨h1, h2⟩) | ⟨h1, h2⟩
  · rw [h]
  · subst h1; subst h2; decide
  · subst h1; subst h2; decide

theorem spEquivL_dropWhile :
    ∀ l₁ l₂, spEquivL l₁ l₂ = true →
      spEquivL (l₁.dropWhile isPyWs) (l₂.dropWhile isPyWs) = true := by
  intro l₁
  induction l₁ with
  | nil => intro l₂ h; cases l₂ <;> simp_all [spEquivL]
  | cons a as ih =>
    intro l₂ h
    cases l₂ with
    | nil => simp [spEquivL] at h
    | cons b bs =>
      simp only [spEquivL, Bool.and_eq_true] at h
      have hws := spChar_ws a b h.1
      cases hb : isPyWs b with
      | true =>
        rw [List.dropWhile_cons_of_pos (by rw [hws, hb]),
          List.dropWhile_cons_of_pos (by rw [hb])]
        exact ih bs h.2
      | false =>
        rw [List.dropWhile_cons_of_neg (by rw [hws, hb]; simp),
          List.dropWhile_cons_of_neg (by rw [hb]; simp)]
        simp only [spEquivL, Bool.and_eq_true]
        exact h

theorem spEquivL_append :
    ∀ as bs a b, spEquivL as bs = true → spChar a b = true →
      spEquivL (as ++ [a]) (bs ++ [b]) = true := by
  intro as
  induction as with
  | nil =>
    intro bs a b h hab
    cases bs with
    | nil => simp [spEquivL, hab]
    | cons c cs => simp [spEquivL] at h
  | cons x xs ih =>
    intro bs a b h hab
    cases bs with
    | nil => simp [spEquivL] at h
    | cons y ys =>
      simp only [spEquivL, Bool.and_eq_true] at h
      simp only [List.cons_append, spEquivL, Bool.and_eq_true]
      exact ⟨h.1, ih ys a b h.2 hab⟩

theorem spEquivL_reverse :
    ∀ l₁ l₂, spEquivL l₁ l₂ = true → spEquivL l₁.reverse l₂.reverse = true := by
  intro l₁
  induction l₁ with
  | nil => intro l₂ h; cases l₂ <;> simp_all [spEquivL]
  | cons a as ih =>
    intro l₂ h
    cases l₂ with
    | nil => simp [spEquivL] at h
    | cons b bs =>
      simp only [spEquivL, Bool.and_eq_true] at h
      simp only [List.reverse_cons]
      exact spEquivL_append _ _ _ _ (ih bs h.2) h.1

theorem spChar_repl (a b : Char) (h : spChar a b = true) : replNl a = replNl b := by
  unfold spChar at h
  simp only [Bool.or_eq_true, Bool.and_eq_true, decide_eq_true_eq] at h
  rcases h with (h | ⟨h1, h2⟩) | ⟨h1, h2⟩
  · rw [h]
  · subst h1; subst h2; decide
  · subst h1; subst h2; decide

theorem spEquivL_map_repl :
    ∀ l₁ l₂, spEquivL l₁ l₂ = true → l₁.map replNl = l₂.map replNl := by
  intro l₁
  induction l₁ with
  | nil => intro l₂ h; cases l₂ <;> simp_all [spEquivL]
  | cons a as ih =>
    intro l₂ h
    cases l₂ with
    | nil => simp [spEquivL] at h
    | cons b bs =>
      simp only [spEquivL, Bool.and_eq_true] at h
      simp only [List.map_cons]
      rw [spChar_repl a b h.1, ih bs h.2]

theorem normalizeL_congr (l₁ l₂ : List Char) (h : textEquivL l₁ l₂ = true) :
    normalizeL l₁ = normalizeL l₂ := by
  unfold normalizeL stripL
  exact spEquivL_map_repl _ _
    (spEquivL_reverse _ _
      (spEquivL_dropWhile _ _
        (spEquivL_reverse _ _
          (spEquivL_dropWhile _ _ (textEquivL_map_lower _ _ h)))))

theorem normalize_congr (s t : String) (h : textEquiv s t = true) :
    normalize s = normalize t := by
  unfold normalize
  rw [normalizeL_congr _ _ h]

/-- Claim C10: every membership test of the evaluator is computed over
lowercased, stripped, newline-to-space normalized text, so replacing the
original text and/or the redacted text by a variant differing only in letter
case or in newline/space swaps leaves the entire evaluation result — in
particular every entity's true-positive/false-negative classification, and
the false-positive word set — unchanged. -/
theorem evaluator_case_newline_insensitive (o₁ o₂ r₁ r₂ : String) (gt : List GtPii)
    (ho : textEquiv o₁ o₂ = true) (hr : textEquiv r₁ r₂ = true) :
    evaluate_redaction o₁ gt r₁ = evaluate_redaction o₂ gt r₂ := by
  unfold evaluate_redaction
  rw [normalize_congr o₁ o₂ ho, normalize_congr r₁ r₂ hr]

/-- Witness for claim C10 at concrete texts differing only by case and one
newline/space swap. -/
theorem evaluator_case_newline_insensitive_witness :
    textEquiv "Name: Jane\nDoe" "name: jane doe" = true ∧
      evaluate_redaction "Name: Jane\nDoe" [⟨"Jane Doe", some 1⟩] "Name: XXXX\nXXX" =
        evaluate_redaction "name: jane doe" [⟨"Jane Doe", some 1⟩] "name: xxxx xxx" :=
  ⟨by decide,
    evaluator_case_newline_insensitive "Name: Jane\nDoe" "name: jane doe"
      "Name: XXXX\nXXX" "name: xxxx xxx" [⟨"Jane Doe", some 1⟩] (by decide) (by decide)⟩

/-! ## Date-of-birth validation (pii_detector.py lines 159-183)

`datetime.strptime` is modelled after CPython's `_strptime`: each format
compiles to a regex whose directives are `%Y = \d{4}`,
`%m = 1[0-2]|0[1-9]|[1-9]`, `%d = 3[01]|[12]\d|0[1-9]|[1-9]`, `%B` = the
English month names matched case-insensitively longest-first, and whitespace
in the format is `\s+`.  A parser returns every way an expression can match a
prefix of the input, in the backtracking engine's preference order; the
head of that list is the regex match, which must consume the whole string
("unconverted data remains" otherwise), after which `datetime` construction
validates the calendar date.  `datetime.now()` is passed in as a date: since
a parsed date has time 00:00:00, `dob > now` holds iff the calendar date of
`dob` is strictly after the calendar date of `now`, whatever the current
time of day. -/

/-- Backtracking parser: all matches of a prefix of the input, in the regex
engine's preference order. -/
def DP (α : Type) : Type := List Char → List (α × List Char)

/-- Parser returning one value without consuming input. -/
def dpure {α : Type} (a : α) : DP α := fun s => [(a, s)]

/-- Sequencing of backtracking parsers, preserving preference order. -/
def dbind {α β : Type} (p : DP α) (f : α → DP β) : DP β :=
  fun s => (p s).flatMap (fun pr => f pr.1 pr.2)

/-- `%Y`: exactly four digits. -/
def pY : DP Nat := fun s =>
  match s with
  | a :: b :: c :: d :: rest =>
    if a.isDigit && b.isDigit && c.isDigit && d.isDigit then
      [(digitVal a * 1000 + digitVal b * 100 + digitVal c * 10 + digitVal d, rest)]
    else []
  | _ => []

/-- `%m`: the regex `1[0-2]|0[1-9]|[1-9]`, alternatives in order. -/
def pm : DP Nat := fun s =>
  (match s with
    | a :: b :: rest =>
      (if a = '1' && ('0' ≤ b && b ≤ '2') then [(10 + digitVal b, rest)] else []) ++
        (if a = '0' && ('1' ≤ b && b ≤ '9') then [(digitVal b, rest)] else [])
    | _ => []) ++
  (match s with
    | a :: rest => if '1' ≤ a && a ≤ '9' then [(digitVal a, rest)] else []
    | _ => [])

/-- `%d`: the regex `3[01]|[12]\d|0[1-9]|[1-9]`, alternatives in order. -/
def pd : DP Nat := fun s =>
  (match s with
    | a :: b :: rest =>
      (if a = '3' && (b = '0' || b = '1') then [(30 + digitVal b, rest)] else []) ++
        (if (a = '1' || a = '2') && b.isDigit then
          [(digitVal a * 10 + digitVal b, rest)] else []) ++
        (if a = '0' && ('1' ≤ b && b ≤ '9') then [(digitVal b, rest)] else [])
    | _ => []) ++
  (match s with
    | a :: rest => if '1' ≤ a && a ≤ '9' then [(digitVal a, rest)] else []
    | _ => [])

/-- A literal format character. -/
def plit (c : Char) : DP Unit := fun s =>
  match s with
  | x :: r => if x = c then [((), r)] else []
  | _ => []

/-- Whitespace in a format: `\s+`, greedy (longest split first). -/
def pws : DP Unit := fun s =>
  let n := (s.takeWhile isPyWs).length
  (List.range n).map (fun i => ((), s.drop (n - i)))

/-- English month names in the longest-first order `_strptime` compiles
them (stable by original month order among equal lengths). -/
def monthNames : List (String × Nat) :=
  [("september", 9), ("february", 2), ("november", 11), ("december", 12),
    ("january", 1), ("october", 10), ("august", 8), ("march", 3), ("april", 4),
    ("june", 6), ("july", 7), ("may", 5)]

/-- `%B`: a full month name, case-insensitive. -/
def pB : DP Nat := fun s =>
  monthNames.flatMap (fun nm =>
    let cs := nm.1.toList
    if (s.take cs.length).map lowerChar = cs then [(nm.2, s.drop cs.length)] else [])

/-- Year-first numeric format `%Y sep %m sep %d`. -/
def fmtYmd (sep : Char) : DP (Nat × Nat × Nat) :=
  dbind pY fun y => dbind (plit sep) fun _ => dbind pm fun m =>
    dbind (plit sep) fun _ => dbind pd fun d => dpure (y, m, d)

/-- Month-first numeric format `%m sep %d sep %Y`. -/
def fmtMdY (sep : Char) : DP (Nat × Nat × Nat) :=
  dbind pm fun m => dbind (plit sep) fun _ => dbind pd fun d =>
    dbind (plit sep) fun _ => dbind pY fun y => dpure (y, m, d)

/-- Day-first numeric format `%d sep %m sep %Y`. -/
def fmtDmY (sep : Char) : DP (Nat × Nat × Nat) :=
  dbind pd fun d => dbind (plit sep) fun _ => dbind pm fun m =>
    dbind (plit sep) fun _ => dbind pY fun y => dpure (y, m, d)

/-- Compact format `%Y%m%d`. -/
def fmtCompact : DP (Nat × Nat × Nat) :=
  dbind pY fun y => dbind pm fun m => dbind pd fun d => dpure (y, m, d)

/-- Textual format `%d %B %Y`. -/
def fmtDBY : DP (Nat × Nat × Nat) :=
  dbind pd fun d => dbind pws fun _ => dbind pB fun m =>
    dbind pws fun _ => dbind pY fun y => dpure (y, m, d)

/-- Textual format `%B %d %Y`. -/
def fmtBdY : DP (Nat × Nat × Nat) :=
  dbind pB fun m => dbind pws fun _ => dbind pd fun d =>
    dbind pws fun _ => dbind pY fun y => dpure (y, m, d)

/-- A calendar date. -/
structure Date where
  year : Nat
  month : Nat
  day : Nat
deriving DecidableEq, Repr

/-- Month length with Gregorian leap years, as `datetime` validates days. -/
def daysInMonth (y m : Nat) : Nat :=
  if m = 2 then (if y % 4 = 0 ∧ (y % 100 ≠ 0 ∨ y % 400 = 0) then 29 else 28)
  else if m = 4 ∨ m = 6 ∨ m = 9 ∨ m = 11 then 30 else 31

/-- `datetime(year, month, day)` construction succeeds. -/
def validDate (y m d : Nat) : Bool :=
  decide (1 ≤ y ∧ y ≤ 9999 ∧ 1 ≤ m ∧ m ≤ 12 ∧ 1 ≤ d ∧ d ≤ daysInMonth y m)

/-- `datetime.strptime(s, fmt)` as an `Option`: the regex engine's preferred
match must consume the whole string and yield a constructible date; `none`
models the raised `ValueError`. -/
def strptime (fmt : DP (Nat × Nat × Nat)) (s : String) : Option Date :=
  match fmt s.toList with
  | [] => none
  | (v, rest) :: _ =>
    if rest = [] then
      if validDate v.1 v.2.1 v.2.2 then some ⟨v.1, v.2.1, v.2.2⟩ else none
    else none

/-- `dob > datetime.now()` for a parsed (midnight) date: true iff the
calendar date is strictly in the future. -/
def dateAfter (d now : Date) : Bool :=
  decide (now.year < d.year ∨ (now.year = d.year ∧
    (now.month < d.month ∨ (now.month = d.month ∧ now.day < d.day))))

/-- The fixed format list of `validate_dob`, in source order:
`%Y-%m-%d`, `%m/%d/%Y`, `%d/%m/%Y`, `%Y.%m.%d`, `%d-%m-%Y`, `%m-%d-%Y`,
`%Y%m%d`, `%d %B %Y`, `%B %d %Y`. -/
def dobFormats : List (DP (Nat × Nat × Nat)) :=
  [fmtYmd '-', fmtMdY '/', fmtDmY '/', fmtYmd '.', fmtDmY '-', fmtMdY '-',
    fmtCompact, fmtDBY, fmtBdY]

/-- The format loop of `validate_dob`: first format that parses decides; a
parse failure (`ValueError`) falls through to the next format. -/
def dobLoop (now : Date) (s : String) : List (DP (Nat × Nat × Nat)) → Bool
  | [] => false
  | f :: rest =>
    match strptime f s with
    | none => dobLoop now s rest
    | some d => !(decide (d.year < 1900) || dateAfter d now)

/-- Embedding of `PIIDetector.validate_dob`. -/
def validate_dob (now : Date) (date_str : String) : Bool :=
  dobLoop now date_str dobFormats

/-- The first format in the fixed order that parses the string. -/
def firstParse (s : String) : Option Date :=
  dobFormats.findSome? (fun f => strptime f s)

/-- Claim C4: `validate_dob` accepts a date string iff the first layout in
the fixed order that parses it yields a year ≥ 1900 and a date not in the
future relative to evaluation time; it rejects every string no layout
parses. -/
theorem validate_dob_iff_firstParse (now : Date) (s : String) :
    validate_dob now s = true ↔
      ∃ d, firstParse s = some d ∧ 1900 ≤ d.year ∧ dateAfter d now = false := by
  unfold validate_dob firstParse
  induction dobFormats with
  | nil => simp [dobLoop]
  | cons f rest ih =>
    rw [dobLoop, List.findSome?_cons]
    cases hp : strptime f s with
    | none => simpa using ih
    | some d =>
      simp only [Option.some.injEq, Bool.not_eq_true', Bool.or_eq_false_iff,
        decide_eq_false_iff_not, not_lt]
      constructor
      · rintro ⟨h1, h2⟩
        exact ⟨d, rfl, h1, h2⟩
      · rintro ⟨d', hd', h1, h2⟩
        cases hd'
        exact ⟨h1, h2⟩

/-! ## JSON parsing (`json.loads`) for the LLM reply (pii_detector.py 262-283)

A `json.loads` model sufficient to decide acceptance: values, objects,
arrays, strings with escapes, numbers, and the Python extensions `NaN`,
`Infinity`, `-Infinity`.  All recursion is fuel-indexed (fuel = input length
+ 1 suffices because every step consumes at least one character), so the
definitions reduce inside the kernel. -/

/-- A parsed JSON value (`json.loads` result). -/
inductive Json where
  | jnull
  | jbool (b : Bool)
  | jnum (v : ℚ)
  | jnonfinite (neg : Bool) (nan : Bool)
  | jstr (cs : List Char)
  | jarr (xs : List Json)
  | jobj (kvs : List (List Char × Json))

/-- JSON whitespace (`json.decoder.WHITESPACE_STR`). -/
def jWs (c : Char) : Bool := c = ' ' || c = '\t' || c = '\n' || c = '\r'

/-- Skip JSON whitespace. -/
def skipJWs (l : List Char) : List Char := l.dropWhile jWs

/-- Expect a literal character sequence. -/
def dropLit : List Char → List Char → Option (List Char)
  | [], l => some l
  | c :: cs, x :: xs => if x = c then dropLit cs xs else none
  | _ :: _, [] => none

/-- One-character JSON string escapes (`json.decoder.BACKSLASH`). -/
def escChar (e : Char) : Option Char :=
  if e = '"' then some '"'
  else if e = '\\' then some '\\'
  else if e = '/' then some '/'
  else if e = 'b' then some '\x08'
  else if e = 'f' then some '\x0c'
  else if e = 'n' then some '\n'
  else if e = 'r' then some '\r'
  else if e = 't' then some '\t'
  else none

/-- Hex digit test (`0-9a-fA-F`). -/
def isHexCh (c : Char) : Bool :=
  c.isDigit || ('a' ≤ c && c ≤ 'f') || ('A' ≤ c && c ≤ 'F')

/-- Value of a hex digit. -/
def hexVal (c : Char) : Nat :=
  if c.isDigit then digitVal c
  else if 'a' ≤ c ∧ c ≤ 'f' then c.toNat - 87
  else c.toNat - 55

/-- JSON string body after the opening quote: content and rest after the
closing quote; strict mode (unescaped control characters rejected). -/
def parseJStrF : Nat → List Char → Option (List Char × List Char)
  | 0, _ => none
  | _ + 1, [] => none
  | fuel + 1, c :: cs =>
    if c = '"' then some ([], cs)
    else if c = '\\' then
      match cs with
      | 'u' :: h1 :: h2 :: h3 :: h4 :: cs3 =>
        if isHexCh h1 && isHexCh h2 && isHexCh h3 && isHexCh h4 then
          (parseJStrF fuel cs3).map (fun pr =>
            (Char.ofNat (((hexVal h1 * 16 + hexVal h2) * 16 + hexVal h3) * 16 + hexVal h4)
              :: pr.1, pr.2))
        else none
      | e :: cs2 =>
        match escChar e with
        | some d => (parseJStrF fuel cs2).map (fun pr => (d :: pr.1, pr.2))
        | none => none
      | [] => none
    else if c.toNat < 32 then none
    else (parseJStrF fuel cs).map (fun pr => (c :: pr.1, pr.2))

/-- Numeric value of a digit run. -/
def natOfDigits (l : List Char) : Nat := l.foldl (fun a c => a * 10 + digitVal c) 0

/-- The `json` number grammar `(-?(?:0|[1-9]\d*))(\.\d+)?([eE][-+]?\d+)?`. -/
def parseNumber (l : List Char) : Option (ℚ × List Char) :=
  let signSplit : Bool × List Char :=
    match l with
    | '-' :: r => (true, r)
    | _ => (false, l)
  let intSplit : Option (List Char × List Char) :=
    match signSplit.2 with
    | '0' :: r => some (['0'], r)
    | c :: r =>
      if c.isDigit then some (c :: r.takeWhile Char.isDigit, r.dropWhile Char.isDigit)
      else none
    | [] => none
  match intSplit with
  | none => none
  | some (ip, l2) =>
    let fracSplit : Option (List Char) × List Char :=
      match l2 with
      | '.' :: r =>
        if (r.takeWhile Char.isDigit).isEmpty then (none, l2)
        else (some (r.takeWhile Char.isDigit), r.dropWhile Char.isDigit)
      | _ => (none, l2)
    let expSplit : Option (Bool × List Char) × List Char :=
      match fracSplit.2 with
      | e :: r =>
        if e = 'e' || e = 'E' then
          match r with
          | '+' :: r2 =>
            if (r2.takeWhile Char.isDigit).isEmpty then (none, fracSplit.2)
            else (some (false, r2.takeWhile Char.isDigit), r2.dropWhile Char.isDigit)
          | '-' :: r2 =>
            if (r2.takeWhile Char.isDigit).isEmpty then (none, fracSplit.2)
            else (some (true, r2.takeWhile Char.isDigit), r2.dropWhile Char.isDigit)
          | _ =>
            if (r.takeWhile Char.isDigit).isEmpty then (none, fracSplit.2)
            else (some (false, r.takeWhile Char.isDigit), r.dropWhile Char.isDigit)
        else (none, fracSplit.2)
      | [] => (none, fracSplit.2)
    let base : ℚ := (natOfDigits ip : ℚ) +
      (match fracSplit.1 with
        | some ds => (natOfDigits ds : ℚ) / ((10 : ℚ) ^ ds.length)
        | none => 0)
    let scaled : ℚ :=
      match expSplit.1 with
      | some (eneg, ds) =>
        base * (10 : ℚ) ^ (if eneg then -(natOfDigits ds : ℤ) else (natOfDigits ds : ℤ))
      | none => base
    some (if signSplit.1 then -scaled else scaled, expSplit.2)

mutual

/-- One JSON value starting at the head of the input (`_scan_once`). -/
def parseJVal : Nat → List Char → Option (Json × List Char)
  | 0, _ => none
  | _ + 1, [] => none
  | fuel + 1, c :: cs =>
    if c = '"' then
      (parseJStrF (fuel + 1) cs).map (fun pr => (Json.jstr pr.1, pr.2))
    else if c = '{' then
      match skipJWs cs with
      | '}' :: r => some (Json.jobj [], r)
      | l2 => (parseJObjItems fuel l2).map (fun pr => (Json.jobj pr.1, pr.2))
    else if c = '[' then
      match skipJWs cs with
      | ']' :: r => some (Json.jarr [], r)
      | l2 => (parseJArrItems fuel l2).map (fun pr => (Json.jarr pr.1, pr.2))
    else
      match dropLit "null".toList (c :: cs) with
      | some r => some (Json.jnull, r)
      | none =>
      match dropLit "true".toList (c :: cs) with
      | some r => some (Json.jbool true, r)
      | none =>
      match dropLit "false".toList (c :: cs) with
      | some r => some (Json.jbool false, r)
      | none =>
      match parseNumber (c :: cs) with
      | some (q, r) => some (Json.jnum q, r)
      | none =>
      match dropLit "NaN".toList (c :: cs) with
      | some r => some (Json.jnonfinite false true, r)
      | none =>
      match dropLit "Infinity".toList (c :: cs) with
      | some r => some (Json.jnonfinite false false, r)
      | none =>
      match dropLit "-Infinity".toList (c :: cs) with
      | some r => some (Json.jnonfinite true false, r)
      | none => none

/-- Array items after `[` (nonempty case), starting at a value. -/
def parseJArrItems : Nat → List Char → Option (List Json × List Char)
  | 0, _ => none
  | fuel + 1, l =>
    match parseJVal fuel l with
    | none => none
    | some (v, r1) =>
      match skipJWs r1 with
      | ',' :: r3 =>
        (parseJArrItems fuel (skipJWs r3)).map (fun pr => (v :: pr.1, pr.2))
      | ']' :: r3 => some ([v], r3)
      | _ => none

/-- Object members after `{` (nonempty case), starting at a key. -/
def parseJObjItems : Nat → List Char → Option (List (List Char × Json) × List Char)
  | 0, _ => none
  | fuel + 1, l =>
    match l with
    | '"' :: r0 =>
      match parseJStrF (fuel + 1) r0 with
      | none => none
      | some (k, r1) =>
        match skipJWs r1 with
        | ':' :: r2 =>
          match parseJVal fuel (skipJWs r2) with
          | none => none
          | some (v, r3) =>
            match skipJWs r3 with
            | ',' :: r4 =>
              (parseJObjItems fuel (skipJWs r4)).map (fun pr => ((k, v) :: pr.1, pr.2))
            | '}' :: r4 => some ([(k, v)], r4)
            | _ => none
        | _ => none
    | _ => none

end

/-- `json.loads` on a character list: parse one value surrounded by
whitespace only. -/
def jsonLoadsL (l : List Char) : Option Json :=
  match parseJVal (l.length + 1) (skipJWs l) with
  | none => none
  | some (v, rest) => if skipJWs rest = [] then some v else none

/-- `json.loads` on a string. -/
def jsonLoads (s : String) : Option Json := jsonLoadsL s.toList

/-! ## LLM reply handling (pii_detector.py lines 185-283) -/

/-- The cleaning step
`re.sub(r"^```(?:json)?|```$", "", reply, flags=re.MULTILINE)`: scan left to
right; at a line start delete a code fence (with an optional `json` tag),
elsewhere delete a fence standing at a line end; all other characters are
kept.  `atStart` tracks whether the scan position is at a line start. -/
def stripFencesAux : Nat → Bool → List Char → List Char
  | 0, _, l => l
  | _ + 1, _, [] => []
  | fuel + 1, atStart, c :: cs =>
    if c = '`' then
      match cs with
      | '`' :: '`' :: rest =>
        if atStart then
          match rest with
          | 'j' :: 's' :: 'o' :: 'n' :: rest2 => stripFencesAux fuel false rest2
          | _ => stripFencesAux fuel false rest
        else
          match rest with
          | [] => []
          | '\n' :: _ => stripFencesAux fuel false rest
          | _ => c :: stripFencesAux fuel false cs
      | _ => c :: stripFencesAux fuel false cs
    else c :: stripFencesAux fuel (c = '\n') cs

/-- The fence-removal scan with enough fuel for the whole input (every step
consumes at least one character). -/
def stripFences (atStart : Bool) (l : List Char) : List Char :=
  stripFencesAux (l.length + 1) atStart l

/-- One attempt of the fallback pattern
`"type"\s*:\s*"([^"]+)",\s*"text"\s*:\s*"([^"]+)"` at the head of the
input: on success, the two captured groups and the rest after the match. -/
def matchTT (l : List Char) : Option ((List Char × List Char) × List Char) :=
  (dropLit "\"type\"".toList l).bind fun l1 =>
  (dropLit [':'] (l1.dropWhile isPyWs)).bind fun l3 =>
  (dropLit ['"'] (l3.dropWhile isPyWs)).bind fun l5 =>
  let g1 := l5.takeWhile (fun c => c ≠ '"')
  if g1.isEmpty then none else
  match l5.drop g1.length with
  | '"' :: l6 =>
    (dropLit [','] l6).bind fun l7 =>
    (dropLit "\"text\"".toList (l7.dropWhile isPyWs)).bind fun l9 =>
    (dropLit [':'] (l9.dropWhile isPyWs)).bind fun l11 =>
    (dropLit ['"'] (l11.dropWhile isPyWs)).bind fun l13 =>
    let g2 := l13.takeWhile (fun c => c ≠ '"')
    if g2.isEmpty then none else
    match l13.drop g2.length with
    | '"' :: l14 => some ((g1, g2), l14)
    | _ => none
  | _ => none

/-- `re.findall` for the fallback pattern: non-overlapping matches scanning
left to right (fuel = input length + 1; every step consumes ≥ 1 character). -/
def findallTTAux : Nat → List Char → List (List Char × List Char)
  | 0, _ => []
  | _ + 1, [] => []
  | fuel + 1, c :: cs =>
    match matchTT (c :: cs) with
    | some (g, rest) => g :: findallTTAux fuel rest
    | none => findallTTAux fuel cs

/-- All fallback-pattern matches of a character list. -/
def findallTT (l : List Char) : List (List Char × List Char) :=
  findallTTAux (l.length + 1) l

/-- Dynamic result of `extract_json_from_llm_response` /
`llm_verify_and_expand`: either the raw `json.loads` value (returned as-is
by the code) or a list of entity dicts. -/
inductive VerifyResult where
  | fromJson (j : Json)
  | entities (es : List Entity)

/-- Embedding of `PIIDetector.extract_json_from_llm_response`: strip, remove
code fences, try `json.loads`; on a decode error fall back to the permissive
`"type"/"text"` pattern extraction (an empty match list yields `[]`). -/
def extract_json_from_llm_response (reply : String) : VerifyResult :=
  let cleaned := stripFences true (stripL reply.toList)
  match jsonLoadsL cleaned with
  | some j => VerifyResult.fromJson j
  | none => VerifyResult.entities ((findallTT cleaned).map (fun g => ⟨⟨g.1⟩, ⟨g.2⟩⟩))

/-- Embedding of `PIIDetector.llm_verify_and_expand`: the external call is
passed in as an `Except` value (`error` = the call raised, `ok content` = the
reply text); a raised call returns the regex results unchanged, otherwise the
stripped reply is parsed. -/
def llm_verify_and_expand (call : Except Unit String) (regex_results : List Entity) :
    VerifyResult :=
  match call with
  | .error _ => VerifyResult.entities regex_results
  | .ok content => extract_json_from_llm_response (pyStrip content)

/-- Claim C1 counterexample: for the unparseable reply "not json" (which the
fallback pattern extraction also fails on), `llm_verify_and_expand` returns
the empty list, not the input candidate list. -/
theorem llm_fallback_counterexample :
    llm_verify_and_expand (Except.ok "not json") [⟨"email", "a@b.com"⟩] =
        VerifyResult.entities [] ∧
      llm_verify_and_expand (Except.ok "not json") [⟨"email", "a@b.com"⟩] ≠
        VerifyResult.entities [⟨"email", "a@b.com"⟩] := by
  have h : llm_verify_and_expand (Except.ok "not json") [⟨"email", "a@b.com"⟩] =
      VerifyResult.entities [] := rfl
  refine ⟨h, ?_⟩
  rw [h]
  intro hcon
  simp at hcon

/-- Claim C1 (amended): if the external call raises, the input candidate
sequence is returned exactly; if the call returns a reply that is not
parseable JSON and the permissive pattern extraction finds nothing, the
empty list is returned instead of the input candidates. -/
theorem llm_fallback_behavior (regex_results : List Entity) :
    llm_verify_and_expand (Except.error ()) regex_results =
        VerifyResult.entities regex_results ∧
      ∀ content : String,
        jsonLoadsL (stripFences true (stripL (pyStrip content).toList)) = none →
        findallTT (stripFences true (stripL (pyStrip content).toList)) = [] →
        llm_verify_and_expand (Except.ok content) regex_results =
          VerifyResult.entities [] := by
  constructor
  · rfl
  · intro content hjson hfind
    unfold llm_verify_and_expand extract_json_from_llm_response
    simp only [String.toList] at hjson hfind
    simp [hjson, hfind]

/-- Witness for the amended claim C1 at a concrete candidate list and reply. -/
theorem llm_fallback_behavior_witness :
    llm_verify_and_expand (Except.error ()) [⟨"email", "a@b.com"⟩] =
        VerifyResult.entities [⟨"email", "a@b.com"⟩] ∧
      llm_verify_and_expand (Except.ok "not json") [⟨"email", "a@b.com"⟩] =
        VerifyResult.entities [] :=
  ⟨(llm_fallback_behavior [⟨"email", "a@b.com"⟩]).1,
    (llm_fallback_behavior [⟨"email", "a@b.com"⟩]).2 "not json" rfl rfl⟩

/-! ## A backtracking regex engine for the PII patterns (pii_detector.py 32-37)

The four `PII_PATTERNS` regexes are transcribed into an AST and run by a
CPS backtracking matcher with Python `re` semantics: alternatives in source
order, greedy/lazy quantifiers, word boundaries, and `$` (end of string or
before a final newline).  The engine is fuel-indexed; `fuel = input length +
pattern size + 100` is ample because every quantifier iteration of these
patterns consumes at least one character. -/

/-- Regex AST: character class, empty, concatenation, ordered alternation,
counted repetition (greedy or lazy), word boundary, end anchor. -/
inductive RE where
  | cls (p : Char → Bool)
  | eps
  | cat (a b : RE)
  | alt (a b : RE)
  | rep (lo : Nat) (hi : Option Nat) (lazyQ : Bool) (r : RE)
  | wordB
  | dollar

/-- Python `\w` (ASCII): letters, digits, underscore. -/
def isWordCh (c : Char) : Bool := c.isAlphanum || c = '_'

/-- Python `\b` at position `i` of `s`. -/
def isWordBoundary (s : Array Char) (i : Nat) : Bool :=
  let before := if i = 0 then false else isWordCh (s.getD (i - 1) ' ')
  let after := isWordCh (s.getD i ' ')
  before != after

/-- The CPS backtracking matcher: `reMatch fuel re s i k` tries to match
`re` at position `i` of `s` and passes the end position to the continuation
`k`, exploring alternatives in Python `re` preference order. -/
def reMatch : Nat → RE → Array Char → Nat → (Nat → Option Nat) → Option Nat
  | 0, _, _, _, _ => none
  | fuel + 1, re, s, i, k =>
    match re with
    | .cls p =>
      if i < s.size then (if p (s.getD i ' ') then k (i + 1) else none) else none
    | .eps => k i
    | .cat a b => reMatch fuel a s i (fun j => reMatch fuel b s j k)
    | .alt a b =>
      match reMatch fuel a s i k with
      | some res => some res
      | none => reMatch fuel b s i k
    | .wordB => if isWordBoundary s i then k i else none
    | .dollar =>
      if i = s.size then k i
      else if i + 1 = s.size && s.getD i ' ' = '\n' then k i
      else none
    | .rep lo hi lazyQ r =>
      if lo > 0 then
        reMatch fuel r s i (fun j =>
          reMatch fuel (.rep (lo - 1) (hi.map (· - 1)) lazyQ r) s j k)
      else
        match hi with
        | some 0 => k i
        | _ =>
          if lazyQ then
            match k i with
            | some res => some res
            | none =>
              reMatch fuel r s i (fun j =>
                if j = i then none
                else reMatch fuel (.rep 0 (hi.map (· - 1)) lazyQ r) s j k)
          else
            match reMatch fuel r s i (fun j =>
                if j = i then none
                else reMatch fuel (.rep 0 (hi.map (· - 1)) lazyQ r) s j k) with
            | some res => some res
            | none => k i

/-- Ample fuel for one anchored match attempt. -/
def reFuel (s : Array Char) : Nat := s.size + 200

/-- `re.finditer`: scan left to right, emit each match and continue at its
end (or one past an empty match). -/
def finditerAux : Nat → RE → Array Char → Nat → List String
  | 0, _, _, _ => []
  | fuel + 1, re, s, i =>
    if i > s.size then []
    else
      match reMatch (reFuel s) re s i some with
      | some j =>
        if i < j then ⟨(s.toList.drop i).take (j - i)⟩ :: finditerAux fuel re s j
        else "" :: finditerAux fuel re s (i + 1)
      | none => finditerAux fuel re s (i + 1)

/-- All matches of a pattern over a string, in order. -/
def finditer (re : RE) (text : String) : List String :=
  finditerAux (text.toList.length + 1) re text.toList.toArray 0

/-- A literal character. -/
def lit (c : Char) : RE := .cls (fun x => x = c)

/-- A literal character string. -/
def rstr (s : String) : RE := s.toList.foldr (fun c acc => RE.cat (lit c) acc) .eps

/-- Concatenation of a pattern list. -/
def cats (l : List RE) : RE := l.foldr RE.cat .eps

/-- The class `[a-zA-Z0-9._%+-]` (email local part). -/
def emailLocalCh (c : Char) : Bool :=
  c.isAlphanum || c = '.' || c = '_' || c = '%' || c = '+' || c = '-'

/-- The class `[a-zA-Z0-9.-]` (email domain). -/
def emailDomainCh (c : Char) : Bool := c.isAlphanum || c = '.' || c = '-'

/-- The pattern `\b[a-zA-Z0-9._%+-]+@[a-zA-Z0-9.-]+\.[a-zA-Z]{2,}\b`. -/
def emailRE : RE :=
  cats [.wordB, .rep 1 none false (.cls emailLocalCh), lit '@',
    .rep 1 none false (.cls emailDomainCh), lit '.',
    .rep 2 none false (.cls Char.isAlpha), .wordB]

/-- The class `[\d\s\-]` (phone filler). -/
def phoneFillCh (c : Char) : Bool := c.isDigit || isPyWs c || c = '-'

/-- The pattern `\+?\d[\d\s\-]{7,}\d`. -/
def phoneRE : RE :=
  cats [.rep 0 (some 1) false (lit '+'), .cls Char.isDigit,
    .rep 7 none false (.cls phoneFillCh), .cls Char.isDigit]

/-- The class `[ -]` (credit-card separator). -/
def ccSepCh (c : Char) : Bool := c = ' ' || c = '-'

/-- The pattern `\b(?:\d[ -]*?){13,19}\b`. -/
def creditCardRE : RE :=
  cats [.wordB,
    .rep 13 (some 19) false (.cat (.cls Char.isDigit) (.rep 0 none true (.cls ccSepCh))),
    .wordB]

/-- The date separator class `[\/\-\.]`. -/
def dateSepCh (c : Char) : Bool := c = '/' || c = '-' || c = '.'

/-- The group `(0?[1-9]|1[0-2])` (month). -/
def monthGroupRE : RE :=
  .alt (.cat (.rep 0 (some 1) false (lit '0')) (.cls (fun c => '1' ≤ c && c ≤ '9')))
    (.cat (lit '1') (.cls (fun c => '0' ≤ c && c ≤ '2')))

/-- The group `(0?[1-9]|[12][0-9]|3[01])` (day). -/
def dayGroupRE : RE :=
  .alt (.cat (.rep 0 (some 1) false (lit '0')) (.cls (fun c => '1' ≤ c && c ≤ '9')))
    (.alt (.cat (.cls (fun c => c = '1' || c = '2')) (.cls (fun c => '0' ≤ c && c ≤ '9')))
      (.cat (lit '3') (.cls (fun c => c = '0' || c = '1'))))

/-- The group `(?:19|20)\d{2}` (year). -/
def yearGroupRE : RE :=
  .cat (.alt (rstr "19") (rstr "20"))
    (.rep 2 (some 2) false (.cls Char.isDigit))

/-- The date-of-birth pattern of `PII_PATTERNS`:
`\b(?:(?:0?[1-9]|1[0-2])[\/\-\.](0?[1-9]|[12][0-9]|3[01])[\/\-\.](?:19|20)\d{2}|(?:19|20)\d{2}[\/\-\.](0?[1-9]|1[0-2])[\/\-\.](0?[1-9]|[12][0-9]|3[01]))\b`. -/
def dobRE : RE :=
  cats [.wordB,
    .alt
      (cats [monthGroupRE, .cls dateSepCh, dayGroupRE, .cls dateSepCh, yearGroupRE])
      (cats [yearGroupRE, .cls dateSepCh, monthGroupRE, .cls dateSepCh, dayGroupRE]),
    .wordB]

/-- Embedding of `PIIDetector.validate_phone_number`: 10 to 15 digits after
stripping non-digits. -/
def validate_phone_number (phone_number : String) : Bool :=
  let ds := phone_number.toList.filter Char.isDigit
  decide (10 ≤ ds.length ∧ ds.length ≤ 15)

/-- The anchored confirmation pattern of `validate_email`:
`^[a-zA-Z0-9._%+-]+@[a-zA-Z0-9.-]+\.[a-zA-Z]{2,}$` (with `re.match`). -/
def emailAnchoredRE : RE :=
  cats [.rep 1 none false (.cls emailLocalCh), lit '@',
    .rep 1 none false (.cls emailDomainCh), lit '.',
    .rep 2 none false (.cls Char.isAlpha), .dollar]

/-- Embedding of `PIIDetector.validate_email`. -/
def validate_email (email : String) : Bool :=
  (reMatch (reFuel email.toList.toArray) emailAnchoredRE email.toList.toArray 0 some).isSome

/-- The ordered pattern table `PII_PATTERNS`. -/
def PII_PATTERNS : List (String × RE) :=
  [("email", emailRE), ("phone", phoneRE), ("credit_card", creditCardRE),
    ("date_of_birth", dobRE)]

/-- The per-type validator dispatch of `detect_with_regex`. -/
def keepMatch (now : Date) (ty : String) (t : String) : Bool :=
  if ty = "credit_card" then validate_credit_card t
  else if ty = "phone" then validate_phone_number t
  else if ty = "email" then validate_email t
  else if ty = "date_of_birth" then validate_dob now t
  else true

/-- Embedding of `PIIDetector.detect_with_regex`: for each pattern in order,
every `finditer` match is stripped, validated by its type's validator, and
appended.  `now` is the evaluation time seen by `validate_dob`. -/
def detect_with_regex (now : Date) (text : String) : List Entity :=
  PII_PATTERNS.foldl
    (fun acc pr =>
      (finditer pr.2 text).foldl
        (fun acc2 m =>
          if keepMatch now pr.1 (pyStrip m) then acc2 ++ [⟨pr.1, pyStrip m⟩] else acc2)
        acc)
    []

theorem flatMap_if_singleton {α β γ : Type} (f : α → β) (p : β → Bool) (g : β → γ)
    (l : List α) :
    l.flatMap (fun m => if p (f m) then [g (f m)] else []) =
      ((l.map f).filter p).map g := by
  induction l with
  | nil => simp
  | cons x xs ih => by_cases h : p (f x) <;> simp [h, ih]

/-- Claim C7 (amended): `detect_with_regex` emits exactly one entity per
validated `finditer` occurrence, pattern by pattern in table order and match
by match in text order; the same matched text appears once per occurrence,
so it can be returned more than once under the same rule. -/
theorem detect_with_regex_per_occurrence (now : Date) (text : String) :
    detect_with_regex now text =
      PII_PATTERNS.flatMap (fun pr =>
        (((finditer pr.2 text).map pyStrip).filter (keepMatch now pr.1)).map
          (fun m => (⟨pr.1, m⟩ : Entity))) := by
  unfold detect_with_regex
  have hinner : ∀ (pr : String × RE) (acc : List Entity),
      (finditer pr.2 text).foldl
        (fun acc2 m =>
          if keepMatch now pr.1 (pyStrip m) then acc2 ++ [⟨pr.1, pyStrip m⟩] else acc2)
        acc =
      acc ++ (((finditer pr.2 text).map pyStrip).filter (keepMatch now pr.1)).map
        (fun m => (⟨pr.1, m⟩ : Entity)) := by
    intro pr acc
    rw [foldl_eq_append_flatMap
      (fun acc2 m =>
        if keepMatch now pr.1 (pyStrip m) then acc2 ++ [(⟨pr.1, pyStrip m⟩ : Entity)]
        else acc2)
      (fun m => if keepMatch now pr.1 (pyStrip m) then [(⟨pr.1, pyStrip m⟩ : Entity)] else [])
      (by intro acc2 m; by_cases h : keepMatch now pr.1 (pyStrip m) <;> simp [h])
      (finditer pr.2 text) acc]
    rw [flatMap_if_singleton pyStrip (keepMatch now pr.1) (fun m => (⟨pr.1, m⟩ : Entity))]
  rw [foldl_eq_append_flatMap
    (fun acc pr =>
      (finditer pr.2 text).foldl
        (fun acc2 m =>
          if keepMatch now pr.1 (pyStrip m) then acc2 ++ [(⟨pr.1, pyStrip m⟩ : Entity)]
          else acc2)
        acc)
    (fun pr =>
      (((finditer pr.2 text).map pyStrip).filter (keepMatch now pr.1)).map
        (fun m => (⟨pr.1, m⟩ : Entity)))
    (fun acc pr => hinner pr acc) PII_PATTERNS []]
  rw [List.nil_append]

/-- Claim C7 counterexample: for the text "a@b.com a@b.com" the email rule
returns the same matched text twice — the result list holds a duplicate
entity, which the claim forbids. -/
theorem detect_with_regex_counterexample :
    detect_with_regex ⟨2026, 10, 12⟩ "a@b.com a@b.com" =
        [⟨"email", "a@b.com"⟩, ⟨"email", "a@b.com"⟩] ∧
      ¬ (detect_with_regex ⟨2026, 10, 12⟩ "a@b.com a@b.com").Nodup := by
  have h : detect_with_regex ⟨2026, 10, 12⟩ "a@b.com a@b.com" =
      [⟨"email", "a@b.com"⟩, ⟨"email", "a@b.com"⟩] := by decide
  refine ⟨h, ?_⟩
  rw [h]
  decide

end PiiRedaction
